import Mathlib

/-!
Verification of the `pipe` library (src/src/lib.rs), a functional-composition
utility: a `Pipe` trait whose `pipe` method wraps a new step around an existing
pipeline, a `pipe` convenience function starting a pipeline, and a `pipe!`
macro offering an alternative construction syntax.

Shallow embedding: a Rust pipeline `impl FnOnce(A) -> B` is a Lean function
`A → B`.  The blanket implementation

    fn pipe<F2>(self, f: F2) -> impl FnOnce(A) -> C { |a| f(self(a)) }

becomes `Pipe.pipe`, and the convenience function

    pub fn pipe<F, A, B>(f: F) -> impl FnOnce(A) -> B { f }

becomes `pipe` (the identity).
-/

/-- Embedding of the blanket `Pipe::pipe` implementation: the returned closure
is `|a| f(self(a))`. -/
def Pipe.pipe {A B C : Type} (self : A → B) (f : B → C) : A → C :=
  fun a => f (self a)

/-- Embedding of the `pipe` convenience function: its body is just `f`. -/
def pipe {A B : Type} (f : A → B) : A → B :=
  f

/-!
Heterogeneously typed sequences of steps, used to state claims quantified over
"every logical sequence of steps".  A chained-call pipeline
`pipe(f1).pipe(f2)...pipe(fn)` associates to the left, so the chained form is a
snoc-structured sequence, while the `pipe!` macro expansion

    pipe(|ident: ty| first) .pipe(|ident| rest1) .pipe(|ident| rest2) ...

consumes its rest-expressions front to back, a cons-structured sequence.
-/

/-- A nonempty, left-nested (snoc) sequence of composable steps, the shape of a
chained `pipe(f).pipe(g)...` expression. -/
inductive Steps : Type → Type → Type 1
  | first : {A B : Type} → (A → B) → Steps A B
  | snoc : {A B C : Type} → Steps A B → (B → C) → Steps A C

/-- The chained-call pipeline built from a sequence of steps: `pipe` on the
first step, then one `Pipe.pipe` call per further step. -/
def chainedForm : {A B : Type} → Steps A B → (A → B)
  | _, _, Steps.first f => pipe f
  | _, _, Steps.snoc p g => Pipe.pipe (chainedForm p) g

/-- A nonempty, right-nested (cons) sequence of composable steps, the shape of
the rest-expression list matched by the `pipe!` macro after its first
expression. -/
inductive RestSteps : Type → Type → Type 1
  | last : {B C : Type} → (B → C) → RestSteps B C
  | cons : {B C D : Type} → (B → C) → RestSteps C D → RestSteps B D

/-- Expansion of the repetition `$( .pipe(|$ident| $rest) )+` of the `pipe!`
macro: starting from the already-built pipeline `p`, append one `Pipe.pipe`
call per rest-expression, front to back. -/
def macroExpandAux : {A B C : Type} → (A → B) → RestSteps B C → (A → C)
  | _, _, _, p, RestSteps.last g => Pipe.pipe p g
  | _, _, _, p, RestSteps.cons g rest => macroExpandAux (Pipe.pipe p g) rest

/-- The full expansion of the `pipe!` macro for a first step `f` and
rest-steps `rest`: `pipe(|ident: ty| first)` followed by one
`.pipe(|ident| rest_i)` per further expression. -/
def macroForm {A B C : Type} (f : A → B) (rest : RestSteps B C) : A → C :=
  macroExpandAux (pipe f) rest

/-- The chained-call sequence denoted by a first pipeline `p` extended by the
steps of `rest` in order. -/
def toChained : {A B C : Type} → Steps A B → RestSteps B C → Steps A C
  | _, _, _, p, RestSteps.last g => Steps.snoc p g
  | _, _, _, p, RestSteps.cons g rest => toChained (Steps.snoc p g) rest

/-!
Execution-order instrumentation for the temporal claim.  A step with an
observable side effect is modelled in writer style: it transforms the value
and appends its tag to a log.  Composing tagged steps with the very same
`pipe` / `Pipe.pipe` calls and then invoking the result exposes, in the log,
which steps ran and in which order; constructing the pipeline touches no log,
since `pipe` and `Pipe.pipe` only build closures.
-/

/-- A step `f` tagged with `i`, with its execution observable: applying it
transforms the value and appends `i` to the log. -/
def tracedStep {A B : Type} (i : Nat) (f : A → B) : A × List Nat → B × List Nat :=
  fun p => (f p.1, p.2 ++ [i])

/-- Left-nested chaining of tagged steps onto an existing pipeline `p`, one
`Pipe.pipe` call per step, exactly as repeated `.pipe(...)` calls associate. -/
def chainFrom {A : Type} (p : A × List Nat → A × List Nat) :
    List (Nat × (A → A)) → (A × List Nat → A × List Nat)
  | [] => p
  | s :: rest => chainFrom (Pipe.pipe p (tracedStep s.1 s.2)) rest

/-- The pipeline `pipe(step_0).pipe(step_1)...pipe(step_n)` built from tagged
steps `first, rest`. -/
def tracedChain {A : Type} (first : Nat × (A → A)) (rest : List (Nat × (A → A))) :
    A × List Nat → A × List Nat :=
  chainFrom (pipe (tracedStep first.1 first.2)) rest

/-- Plain sequential execution of the untagged steps: apply `f`, then each
element of `rest` in order to the running value. -/
def runSeq {A : Type} (f : A → A) (rest : List (A → A)) (a : A) : A :=
  rest.foldl (fun x g => g x) (f a)

/-!
Failure model for the error-propagation claim.  A fallible step is a function
`A → Except E B`; Rust's panic/unwind semantics for the composing closure
`|a| f(self(a))` are: evaluate `self(a)` first, and if it fails the failure is
the result of the whole call and `f` is never entered, otherwise apply `f` to
the produced value — which is exactly `Except.bind`.
-/

/-- The composing closure `|a| f(self(a))` of `Pipe::pipe` under failure
semantics: a failure of `self` short-circuits past `f` unchanged. -/
def pipeE {A B C E : Type} (self : A → Except E B) (f : B → Except E C) : A → Except E C :=
  fun a => (self a).bind f

/-- Left-nested chaining of fallible steps onto an existing fallible pipeline
`p`, one composing closure per step, as repeated `.pipe(...)` calls
associate. -/
def chainFromE {A E : Type} (p : A → Except E A) :
    List (A → Except E A) → (A → Except E A)
  | [] => p
  | g :: gs => chainFromE (pipeE p g) gs

/-- The composed fallible pipeline `pipe(f).pipe(g_1)...pipe(g_n)`. -/
def composedE {A E : Type} (f : A → Except E A) (rest : List (A → Except E A)) :
    A → Except E A :=
  chainFromE (pipe f) rest

/-- A caller invoking the steps manually in sequence: run `f` on the input,
stop at the first failure, and otherwise feed the result to the remaining
steps. -/
def manualE {A E : Type} (f : A → Except E A) : List (A → Except E A) → A → Except E A
  | [], a => f a
  | g :: gs, a =>
    match f a with
    | Except.error e => Except.error e
    | Except.ok b => manualE g gs b

/-!
Syntax model for the `pipe!` macro arity claim.  The macro rule is

    ( $ident:ident: $ty:ty; $first:expr => $( $rest:expr )=>* ) => {{ ... }}

After the binding and type, the matcher consumes one expression, then a
mandatory literal `=>` token, then zero or more further expressions separated
by `=>`.  The token stream after `$ty;` is modelled as a list of `MacroTok`,
with expressions identified by indices.
-/

/-- A token of the `pipe!` macro body after the input binding and type: a step
expression (identified by an index) or the chain separator `=>`. -/
inductive MacroTok : Type
  | expr : Nat → MacroTok
  | arrow : MacroTok
deriving DecidableEq

/-- The matcher of the repetition `$( $rest:expr )=>*`: zero or more
expressions separated by `=>`, consuming the whole remaining stream.  A
trailing separator matches nothing (the repetition demands an expression after
each separator it consumes). -/
def matchSepExprs : List MacroTok → Option (List Nat)
  | [] => some []
  | [MacroTok.expr e] => some [e]
  | MacroTok.expr e :: MacroTok.arrow :: t :: ts =>
    (matchSepExprs (t :: ts)).map (fun l => e :: l)
  | _ => none

/-- The matcher of `$first:expr => $( $rest:expr )=>*`: one expression, a
mandatory `=>`, then the separated repetition.  On success it returns the
first expression and the ordered rest-expressions, i.e. exactly the sequence
of `.pipe` calls the macro transcribes. -/
def pipeMacroMatch : List MacroTok → Option (Nat × List Nat)
  | MacroTok.expr f :: MacroTok.arrow :: ts =>
    (matchSepExprs ts).map (fun l => (f, l))
  | _ => none

/-- The token stream a user writes for the given ordered step expressions:
the expressions with a `=>` between each consecutive pair. -/
def renderMacroArgs : List Nat → List MacroTok
  | [] => []
  | [e] => [MacroTok.expr e]
  | e :: rest => MacroTok.expr e :: MacroTok.arrow :: renderMacroArgs rest

/-!
The doc-comment example of `pipe` (lines 33–41 of lib.rs):

    let remove_long_words = pipe(|s: &str| s.split(' '))
        .pipe(|split| split.filter(|s| s.len() <= 4))
        .pipe(|filtered| filtered.collect::<Vec<_>>())
        .pipe(|words| words.join(" "));

The lazy iterator pipeline is modelled on eagerly materialised lists (so
`collect::<Vec<_>>` is the identity on the list), `str::len` agrees with
`String.length` on the ASCII strings involved, and `str::split` and
`[&str]::join` are embedded below.
-/

/-- Embedding of Rust's `str::split(' ')`: cut the character sequence at every
space; `acc` holds the characters of the current token in reverse.  A run of
`k` consecutive spaces yields `k - 1` empty tokens between its neighbours, and
the empty string splits to `[""]`, as in Rust. -/
def splitOnSpaceAux : List Char → List Char → List String
  | acc, [] => [String.mk acc.reverse]
  | acc, c :: cs =>
    if c = ' ' then String.mk acc.reverse :: splitOnSpaceAux [] cs
    else splitOnSpaceAux (c :: acc) cs

/-- Embedding of Rust's `"...".split(' ')`, eagerly materialised. -/
def splitOnSpace (s : String) : List String :=
  splitOnSpaceAux [] s.toList

/-- Embedding of Rust's `Vec::<&str>::join(sep)`: concatenate the elements with
`sep` between consecutive elements. -/
def joinWith (sep : String) : List String → String
  | [] => ""
  | [w] => w
  | w :: ws => w ++ sep ++ joinWith sep ws

/-- Embedding of the `remove_long_words` pipeline from the documentation
example of `pipe`. -/
def remove_long_words : String → String :=
  Pipe.pipe
    (Pipe.pipe
      (Pipe.pipe
        (pipe (fun s : String => splitOnSpace s))
        (fun l => l.filter (fun s => s.length ≤ 4)))
      (fun filtered => filtered))
    (fun words => joinWith " " words)

/-!  Helper lemmas.  -/

theorem macroExpandAux_chainedForm {A B C : Type} (rest : RestSteps B C) :
    ∀ (p : Steps A B), macroExpandAux (chainedForm p) rest = chainedForm (toChained p rest) := by
  induction rest with
  | last g => intro p; simp [macroExpandAux, toChained, chainedForm]
  | cons g rest ih =>
    intro p
    simp only [macroExpandAux, toChained]
    have h : Pipe.pipe (chainedForm p) g = chainedForm (Steps.snoc p g) := by
      simp [chainedForm]
    rw [h, ih (Steps.snoc p g)]

theorem chainFrom_apply {A : Type} (rest : List (Nat × (A → A))) :
    ∀ (p : A × List Nat → A × List Nat) (x : A × List Nat),
      chainFrom p rest x = rest.foldl (fun y s => tracedStep s.1 s.2 y) (p x) := by
  induction rest with
  | nil => intro p x; rfl
  | cons s rest ih =>
    intro p x
    simp only [chainFrom, List.foldl_cons]
    rw [ih (Pipe.pipe p (tracedStep s.1 s.2)) x]
    rfl

theorem foldl_tracedStep {A : Type} (rest : List (Nat × (A → A))) :
    ∀ (a : A) (l : List Nat),
      rest.foldl (fun y s => tracedStep s.1 s.2 y) (a, l) =
        ((rest.map Prod.snd).foldl (fun x g => g x) a, l ++ rest.map Prod.fst) := by
  induction rest with
  | nil => intro a l; simp
  | cons s rest ih =>
    intro a l
    rw [List.foldl_cons]
    show rest.foldl (fun y s => tracedStep s.1 s.2 y) (s.2 a, l ++ [s.1]) = _
    rw [ih (s.2 a) (l ++ [s.1])]
    simp

theorem manualE_pipeE {A E : Type} (gs : List (A → Except E A))
    (p g : A → Except E A) (a : A) :
    manualE (pipeE p g) gs a = manualE p (g :: gs) a := by
  cases gs with
  | nil =>
    show (p a).bind g = _
    cases h : p a with
    | error e => simp [manualE, h, Except.bind]
    | ok b => simp [manualE, h, Except.bind]
  | cons g2 gs2 =>
    show manualE (pipeE p g) (g2 :: gs2) a = _
    cases h : p a with
    | error e => simp [manualE, pipeE, h, Except.bind]
    | ok b =>
      cases h2 : g b with
      | error e => simp [manualE, pipeE, h, h2, Except.bind]
      | ok c => simp [manualE, pipeE, h, h2, Except.bind]

theorem chainFromE_manualE {A E : Type} (rest : List (A → Except E A)) :
    ∀ (p : A → Except E A) (a : A), chainFromE p rest a = manualE p rest a := by
  induction rest with
  | nil => intro p a; rfl
  | cons g gs ih =>
    intro p a
    show chainFromE (pipeE p g) gs a = _
    rw [ih (pipeE p g) a, manualE_pipeE]

theorem manualE_err_head {A E : Type} (g : A → Except E A)
    (gs : List (A → Except E A)) (b : A) (e : E) (h : g b = Except.error e) :
    manualE g gs b = Except.error e := by
  cases gs with
  | nil => simpa [manualE] using h
  | cons g2 gs2 => simp [manualE, h]

theorem manualE_append_err {A E : Type} (g : A → Except E A)
    (gs2 : List (A → Except E A)) (e : E) (gs1 : List (A → Except E A)) :
    ∀ (f : A → Except E A) (a b : A), manualE f gs1 a = Except.ok b →
      g b = Except.error e → manualE f (gs1 ++ g :: gs2) a = Except.error e := by
  induction gs1 with
  | nil =>
    intro f a b h1 h2
    have hf : f a = Except.ok b := h1
    show manualE f (g :: gs2) a = Except.error e
    simp [manualE, hf, manualE_err_head g gs2 b e h2]
  | cons g1 gs1 ih =>
    intro f a b h1 h2
    cases h : f a with
    | error e2 =>
      rw [show manualE f (g1 :: gs1) a = Except.error e2 by simp [manualE, h]] at h1
      exact absurd h1 (by simp)
    | ok c =>
      have h1c : manualE g1 gs1 c = Except.ok b := by
        rw [show manualE f (g1 :: gs1) a = manualE g1 gs1 c by simp [manualE, h]] at h1
        exact h1
      show manualE f ((g1 :: gs1) ++ g :: gs2) a = Except.error e
      simp only [List.cons_append, manualE, h]
      exact ih g1 c b h1c h2

theorem matchSepExprs_render (es : List Nat) :
    ∀ (e : Nat), matchSepExprs (renderMacroArgs (e :: es)) = some (e :: es) := by
  induction es with
  | nil => intro e; rfl
  | cons e2 es ih =>
    intro e
    have hstep : renderMacroArgs (e :: e2 :: es) =
        MacroTok.expr e :: MacroTok.arrow :: renderMacroArgs (e2 :: es) := by
      simp [renderMacroArgs]
    obtain ⟨t, ts, hr⟩ : ∃ t ts, renderMacroArgs (e2 :: es) = t :: ts := by
      cases es <;> exact ⟨_, _, rfl⟩
    have ih2 := ih e2
    rw [hr] at ih2
    rw [hstep, hr]
    simp [matchSepExprs, ih2]

/-!  Claim theorems.  -/

/-- C1: for every pipeline `P : A → B`, step `g : B → C` and input `a`, the
extended pipeline `P.pipe(g)` invoked with `a` computes exactly `g(P(a))`. -/
theorem pipe_extension_correct {A B C : Type} (P : A → B) (g : B → C) (a : A) :
    Pipe.pipe P g a = g (P a) :=
  rfl

/-- C2: for all steps `f, g, h` and input `x`, the pipeline
`pipe(f).pipe(g).pipe(h)` invoked on `x` yields `h(g(f(x)))`, identical to
manually nesting the three calls. -/
theorem pipe_three_step_assoc {A B C D : Type} (f : A → B) (g : B → C) (h : C → D) (x : A) :
    Pipe.pipe (Pipe.pipe (pipe f) g) h x = h (g (f x)) :=
  rfl

/-- C3: for every logical sequence of steps (a first step `f` and further steps
`rest`) and every input `a`, the pipeline built by the `pipe!` macro expansion
produces output identical to the chained `pipe(...).pipe(...)` form it
desugars to. -/
theorem macro_chain_equiv {A B C : Type} (f : A → B) (rest : RestSteps B C) (a : A) :
    macroForm f rest a = chainedForm (toChained (Steps.first f) rest) a := by
  have h : macroForm f rest = chainedForm (toChained (Steps.first f) rest) := by
    show macroExpandAux (pipe f) rest = _
    have h0 : pipe f = chainedForm (Steps.first f) := by simp [chainedForm]
    rw [h0, macroExpandAux_chainedForm]
  rw [h]

/-- C4: for every step `f` and input `x`, the single-step pipeline `pipe(f)`
invoked with `x` yields exactly `f(x)`. -/
theorem pipe_single_step {A B : Type} (f : A → B) (x : A) :
    pipe f x = f x :=
  rfl

/-- C5: invoking the pipeline built from tagged steps `first, rest` on input
`a` with initial log `l0` produces the value of running the steps sequentially
and appends to the log exactly the declared tags, in declared order: every
step runs, none is skipped or reordered, and step `i` finishes (its tag and
value recorded) before step `i+1` starts (which consumes them).  The log
extends `l0`, so construction (the `pipe` and `Pipe.pipe` calls inside
`tracedChain`) executed no step. -/
theorem pipe_execution_order {A : Type} (first : Nat × (A → A))
    (rest : List (Nat × (A → A))) (a : A) (l0 : List Nat) :
    tracedChain first rest (a, l0) =
      (runSeq first.2 (rest.map Prod.snd) a, l0 ++ first.1 :: rest.map Prod.fst) := by
  show chainFrom (pipe (tracedStep first.1 first.2)) rest (a, l0) = _
  rw [chainFrom_apply]
  show rest.foldl (fun y s => tracedStep s.1 s.2 y) (first.2 a, l0 ++ [first.1]) = _
  rw [foldl_tracedStep]
  simp [runSeq]

/-- C6: for every fallible pipeline `pipe(f).pipe(g_1)...` and every input, the
composed pipeline behaves exactly as a caller invoking the steps manually in
sequence; in particular, when the steps before `g` succeed and `g` fails with
`e`, the result is that very failure `e` — unchanged, with no subsequent step
(`gs2`) ever executed. -/
theorem pipe_error_propagation {A E : Type} (f : A → Except E A)
    (gs1 gs2 : List (A → Except E A)) (g : A → Except E A) (a : A) :
    composedE f (gs1 ++ g :: gs2) a = manualE f (gs1 ++ g :: gs2) a ∧
      ∀ (b : A) (e : E), manualE f gs1 a = Except.ok b → g b = Except.error e →
        composedE f (gs1 ++ g :: gs2) a = Except.error e := by
  constructor
  · exact chainFromE_manualE (gs1 ++ g :: gs2) (pipe f) a
  · intro b e h1 h2
    show chainFromE (pipe f) (gs1 ++ g :: gs2) a = Except.error e
    rw [chainFromE_manualE (gs1 ++ g :: gs2) (pipe f) a]
    exact manualE_append_err g gs2 e gs1 f a b h1 h2

/-- C6 witness: concrete three-step fallible pipeline over `Nat` where the
second step fails with "boom"; the composed pipeline surfaces exactly that
failure. -/
theorem pipe_error_propagation_witness :
    composedE (fun n : Nat => Except.ok (n + 1))
      ([] ++ (fun _ : Nat => Except.error "boom") :: [fun n : Nat => Except.ok (n * 2)]) 0 =
      Except.error "boom" :=
  (pipe_error_propagation (fun n : Nat => Except.ok (n + 1)) []
    [fun n : Nat => Except.ok (n * 2)] (fun _ : Nat => Except.error "boom") 0).2
    1 "boom" (by simp [manualE]) rfl

/-- C7 counterexample: a single step expression after the input binding and
type is rejected by the `pipe!` matcher — the mandatory `=>` after
`$first:expr` is missing, so the macro does not accept a single expression. -/
theorem pipe_macro_single_expr_rejected :
    pipeMacroMatch [MacroTok.expr 0] = none := by
  decide

/-- C7 (amended): the `pipe!` matcher accepts any sequence of two or more step
expressions separated by `=>` — a first expression plus one or more further
expressions — and recovers them in declared order, each further expression
becoming one `.pipe` call of the chained desugaring; a single expression is
not accepted. -/
theorem pipe_macro_arity {e1 e2 : Nat} {es : List Nat} :
    pipeMacroMatch (renderMacroArgs (e1 :: e2 :: es)) = some (e1, e2 :: es) := by
  have h : renderMacroArgs (e1 :: e2 :: es) =
      MacroTok.expr e1 :: MacroTok.arrow :: renderMacroArgs (e2 :: es) := by
    simp [renderMacroArgs]
  rw [h]
  show (matchSepExprs (renderMacroArgs (e2 :: es))).map (fun l => (e1, l)) = _
  rw [matchSepExprs_render es e2]
  rfl

/-- C9: the documentation-example pipeline — split the input on spaces, keep
tokens of length at most 4, collect, join with a single space — maps the input
"foo bar hello world baz" to "foo bar baz". -/
theorem remove_long_words_example :
    remove_long_words "foo bar hello world baz" = "foo bar baz" := by
  decide

/-- C10: the `pipe` function is the identity on its argument: `pipe f` is `f`
itself, so wrapping a function with `pipe` never alters its behaviour on any
input. -/
theorem pipe_is_identity {A B : Type} (f : A → B) :
    pipe f = f ∧ ∀ x : A, pipe f x = f x :=
  ⟨rfl, fun _ => rfl⟩
